import Mathlib

/-!
Verification of the NaN-tolerant loss/metric layer (`goli/ipu/ipu_metrics.py`)
and the cached pairwise graph-distance computation (`goli/features/graphormer.py`).

Modelling conventions:
* 1-D tensors are `List ℚ`; a target tensor is a `List (Option ℚ)` where `none`
  is the NaN ("missing label") sentinel.  Floating-point values are modelled as
  exact rationals.
* The final rescaling step `loss * numel / count` divides by an integer count
  that can be zero; IEEE semantics (0/0 = NaN, x/0 = ±inf) is modelled by the
  `FlVal` type and `ieeeDiv`.  The mean of an empty tensor is NaN in torch,
  which propagates through the product and the division, so the embedding
  returns `FlVal.nan` outright when the tensors are empty.
* The pointwise binary-cross-entropy term `-(t*log x + (1-t)*log (1-x))` is a
  transcendental function of the inputs; the masking algebra proved here is
  independent of it, so it is abstracted as a parameter `ell : ℚ → ℚ → ℚ`.
* Stateful code is modelled by explicit state passing: `BCELossIPU.forward`
  returns the final value of the `self.weight` attribute; the metric wrappers
  return both the argument bundle handed to the underlying `torchmetrics`
  statistic and the final contents of the caller-owned buffers (a `clone()`
  means writes do not reach the caller's buffer; `sample_weights[nan] = 0`
  writes through the caller's buffer).
-/

/-- Result of a floating-point scalar operation: a finite value, NaN, or a
signed infinity. -/
inductive FlVal where
  | fin : ℚ → FlVal
  | nan : FlVal
  | pinf : FlVal
  | ninf : FlVal
deriving DecidableEq, Repr

/-- IEEE-style division producing NaN on 0/0 and a signed infinity on x/0. -/
def ieeeDiv (a b : ℚ) : FlVal :=
  if b = 0 then (if a = 0 then FlVal.nan else if 0 < a then FlVal.pinf else FlVal.ninf)
  else FlVal.fin (a / b)

/-- Model of `(~nan_targets).sum()`: the number of non-missing target entries. -/
def countNonMissing (target : List (Option ℚ)) : ℕ :=
  target.countP (fun t => t.isSome)

/-- Model of `input[nan_targets] = 0.0`: zero the prediction wherever the target is missing. -/
def zeroMissingInput (input : List ℚ) (target : List (Option ℚ)) : List ℚ :=
  List.zipWith (fun x t => if t.isSome then x else 0) input target

/-- Model of `target[nan_targets] = 0.0`: the target tensor with missing entries replaced by 0. -/
def zeroMissingTarget (target : List (Option ℚ)) : List ℚ :=
  target.map (fun t => t.getD 0)

/-- Model of `weight[nan_targets] = 0.0`: zero a weight vector wherever the target is missing. -/
def zeroMissingWeight (w : List ℚ) (target : List (Option ℚ)) : List ℚ :=
  List.zipWith (fun wi t => if t.isSome then wi else 0) w target

/-- Model of `BCELossIPU.forward` lines 33-37: missing targets are replaced by `0` when
the prediction is `< 0.5` and by `1` when it is `>= 0.5`; other entries keep
their value. -/
def bceNeutralTarget (input : List ℚ) (target : List (Option ℚ)) : List ℚ :=
  List.zipWith (fun x t => match t with
    | some v => v
    | none => if x < 1/2 then 0 else 1) input target

/-- Keep the entries of `xs` at positions where `target` is not missing
(the tensors with the missing-target rows removed). -/
def trimBy (target : List (Option ℚ)) (xs : List ℚ) : List ℚ :=
  (xs.zip target).filterMap (fun p => if p.2.isSome then some p.1 else none)

/-- The non-missing target values, in order. -/
def trimTargets (target : List (Option ℚ)) : List ℚ :=
  target.filterMap id

/-- Model of `torch.nn.MSELoss` with the default mean reduction. -/
def mseLoss (input target : List ℚ) : ℚ :=
  (List.zipWith (fun x y => (x - y) ^ 2) input target).sum / input.length

/-- Model of `torch.nn.L1Loss` with the default mean reduction. -/
def l1Loss (input target : List ℚ) : ℚ :=
  (List.zipWith (fun x y => |x - y|) input target).sum / input.length

/-- Model of `torch.nn.BCELoss` with a per-element weight and the default mean
reduction: the mean over all elements of `w_i * ell(x_i, t_i)`, where `ell` is
the pointwise binary-cross-entropy term. -/
def bceLoss (ell : ℚ → ℚ → ℚ) (weight input target : List ℚ) : ℚ :=
  (List.zipWith (fun w z => w * z) weight (List.zipWith ell input target)).sum / input.length

/-- The shared rescale line `loss * nan_targets.numel() / ((~nan_targets).sum())`
of the three loss variants.  When the tensors are empty the raw mean is
already NaN in torch and NaN propagates; otherwise IEEE division by the
(possibly zero) count of non-missing entries decides the result. -/
def rescaleLoss (loss : ℚ) (target : List (Option ℚ)) : FlVal :=
  if target.length = 0 then FlVal.nan
  else ieeeDiv (loss * (target.length : ℚ)) ((countNonMissing target : ℚ))

/-- Model of `MSELossIPU.forward` (ipu_metrics.py lines 58-72).  `input` and `target`
are cloned, so the caller's buffers (returned as the 2nd and 3rd components)
are unchanged. -/
def MSELossIPU_forward (input : List ℚ) (target : List (Option ℚ)) :
    FlVal × List ℚ × List (Option ℚ) :=
  let input' := zeroMissingInput input target
  let target' := zeroMissingTarget target
  let loss := mseLoss input' target'
  (rescaleLoss loss target, input, target)

/-- The scalar returned by `MSELossIPU.forward`. -/
def mseLossIPU (input : List ℚ) (target : List (Option ℚ)) : FlVal :=
  (MSELossIPU_forward input target).1

/-- Model of `L1LossIPU.forward` (ipu_metrics.py lines 83-97). -/
def L1LossIPU_forward (input : List ℚ) (target : List (Option ℚ)) :
    FlVal × List ℚ × List (Option ℚ) :=
  let input' := zeroMissingInput input target
  let target' := zeroMissingTarget target
  let loss := l1Loss input' target'
  (rescaleLoss loss target, input, target)

/-- The scalar returned by `L1LossIPU.forward`. -/
def l1LossIPU (input : List ℚ) (target : List (Option ℚ)) : FlVal :=
  (L1LossIPU_forward input target).1

/-- Model of `BCELossIPU.forward` (ipu_metrics.py lines 17-47), with the `self.weight`
attribute passed as explicit state (`self_weight`) and returned as the second
component.  Line 25 clones the attribute into `prev_weight` (same element
values), line 41 installs the neutralized weight for the underlying `BCELoss`
call, and line 46 restores `prev_weight` before returning.  A `None` weight is
replaced by all-ones of the target's shape (line 29). -/
def BCELossIPU_forward (ell : ℚ → ℚ → ℚ) (self_weight : Option (List ℚ))
    (input : List ℚ) (target : List (Option ℚ)) : FlVal × Option (List ℚ) :=
  let prev_weight := self_weight
  let weight := match self_weight with
    | some w => w
    | none => List.replicate target.length 1
  let target' := bceNeutralTarget input target
  let weight' := zeroMissingWeight weight target
  let loss := bceLoss ell weight' input target'
  (rescaleLoss loss target, prev_weight)

/-- The scalar returned by `BCELossIPU.forward`. -/
def bceLossIPU (ell : ℚ → ℚ → ℚ) (self_weight : Option (List ℚ))
    (input : List ℚ) (target : List (Option ℚ)) : FlVal :=
  (BCELossIPU_forward ell self_weight input target).1

/-- Model of `target.to(int)`: torch's float-to-int cast truncates toward zero. -/
def toIntTrunc (q : ℚ) : ℤ :=
  if q < 0 then -(Rat.floor (-q)) else Rat.floor q

/-- Model of `auroc_ipu` (ipu_metrics.py lines 100-140).  `target` and `preds` are
cloned (lines 116-117) and neutralized on the clones (lines 121-122); a `None`
`sample_weights` is replaced by all-ones (line 126); line 127 zeroes the
weights at missing positions, writing through the caller's array when one was
supplied.  The first component is the argument bundle `(preds, target.to(int),
sample_weights)` passed to `torchmetrics.functional.auroc`; the second is the
final contents of the caller-owned buffers `(preds, target, sample_weights)`. -/
def auroc_ipu (preds : List ℚ) (target : List (Option ℚ))
    (sample_weights : Option (List ℚ)) :
    (List ℚ × List ℤ × List ℚ) × (List ℚ × List (Option ℚ) × Option (List ℚ)) :=
  let preds' := zeroMissingInput preds target
  let target' := zeroMissingTarget target
  let sw0 := match sample_weights with
    | none => List.replicate target.length 1
    | some w => w
  let swPassed := zeroMissingWeight sw0 target
  let swFinal := Option.map (fun w => zeroMissingWeight w target) sample_weights
  ((preds', target'.map toIntTrunc, swPassed), (preds, target, swFinal))

/-- Model of `average_precision_ipu` (ipu_metrics.py lines 142-179); identical
neutralization and weight handling to `auroc_ipu`, including the in-place
write to a caller-supplied `sample_weights` (line 168). -/
def average_precision_ipu (preds : List ℚ) (target : List (Option ℚ))
    (sample_weights : Option (List ℚ)) :
    (List ℚ × List ℤ × List ℚ) × (List ℚ × List (Option ℚ) × Option (List ℚ)) :=
  let preds' := zeroMissingInput preds target
  let target' := zeroMissingTarget target
  let sw0 := match sample_weights with
    | none => List.replicate target.length 1
    | some w => w
  let swPassed := zeroMissingWeight sw0 target
  let swFinal := Option.map (fun w => zeroMissingWeight w target) sample_weights
  ((preds', target'.map toIntTrunc, swPassed), (preds, target, swFinal))

/-- Model of `precision_ipu` (ipu_metrics.py lines 181-218).  `target` and `preds` are
cloned (lines 199-200); at missing positions the target is forced to `1` and
the prediction to `0` (lines 202-204); no weight vector exists in this
function.  First component: `(preds, target.to(int))` as passed to
`torchmetrics.functional.precision`; second: the caller's buffers after the
call. -/
def precision_ipu (preds : List ℚ) (target : List (Option ℚ)) :
    (List ℚ × List ℤ) × (List ℚ × List (Option ℚ)) :=
  let target' := target.map (fun t => t.getD 1)
  let preds' := List.zipWith (fun p t => if t.isSome then p else 0) preds target
  ((preds', target'.map toIntTrunc), (preds, target))

/-- Model of `accuracy_ipu` (ipu_metrics.py lines 220-269); same neutralization as
`precision_ipu` (lines 239-244). -/
def accuracy_ipu (preds : List ℚ) (target : List (Option ℚ)) :
    (List ℚ × List ℤ) × (List ℚ × List (Option ℚ)) :=
  let target' := target.map (fun t => t.getD 1)
  let preds' := List.zipWith (fun p t => if t.isSome then p else 0) preds target
  ((preds', target'.map toIntTrunc), (preds, target))

/-- Model of `recall_ipu` (ipu_metrics.py lines 271-318); same neutralization as
`precision_ipu` (lines 289-294). -/
def recall_ipu (preds : List ℚ) (target : List (Option ℚ)) :
    (List ℚ × List ℤ) × (List ℚ × List (Option ℚ)) :=
  let target' := target.map (fun t => t.getD 1)
  let preds' := List.zipWith (fun p t => if t.isSome then p else 0) preds target
  ((preds', target'.map toIntTrunc), (preds, target))

/-- The fixed cache key used by `compute_graphormer_distances`. -/
def graphormerKey : String := "graphormer"

/-- The granularity tag returned by `compute_graphormer_distances`. -/
def pairTag : String := "pair"

/-- Edge relation of `nx.from_numpy_array(adj)`: an undirected edge joins `i`
and `j` whenever either matrix entry is nonzero. -/
def edgeB (adj : ℕ → ℕ → ℚ) (i j : ℕ) : Bool :=
  decide (adj i j ≠ 0 ∨ adj j i ≠ 0)

/-- Predicate `hasWalkB adj n k i j` holds when the graph on nodes `0..n-1` built from
`adj` has a walk of exactly `k` edges from `i` to `j`. -/
def hasWalkB (adj : ℕ → ℕ → ℚ) (n : ℕ) : ℕ → ℕ → ℕ → Bool
  | 0, i, j => i == j
  | k+1, i, j => (List.range n).any (fun m => edgeB adj i m && hasWalkB adj n k m j)

/-- Linear search for the least walk length `cur ≤ d < cur + fuel` between `i`
and `j`. -/
def spDistAux (adj : ℕ → ℕ → ℚ) (n i j : ℕ) : ℕ → ℕ → Option ℕ
  | _, 0 => none
  | cur, fuel+1 =>
    if hasWalkB adj n cur i j then some cur else spDistAux adj n i j (cur+1) fuel

/-- Hop distance `len(path) - 1` of `nx.all_pairs_shortest_path`: the least
number of edges of a walk from `i` to `j`, searched up to `n - 1` (a shortest
path in a graph with `n` nodes has fewer than `n` edges); `none` when `j` is
unreachable from `i` (the Python code raises a `KeyError` in that case). -/
def spDist (adj : ℕ → ℕ → ℚ) (n i j : ℕ) : Option ℕ :=
  spDistAux adj n i j 0 n

/-- The matrix `[[dist_dict[i][j] for j in range(num_nodes)] for i in
range(num_nodes)]` (graphormer.py lines 36-40); `none` when some pair is
unreachable. -/
def graphormerDistMatrix (adj : ℕ → ℕ → ℚ) (num_nodes : ℕ) :
    Option (List (List ℕ)) :=
  (List.range num_nodes).mapM
    (fun i => (List.range num_nodes).mapM (fun j => spDist adj num_nodes i j))

/-- Model of `compute_graphormer_distances` (graphormer.py lines 9-43), with the cache
modelled as an association list: on a hit the cached matrix is returned with
the cache untouched; on a miss the matrix is computed and inserted under the
fixed key before returning. -/
def compute_graphormer_distances (adj : ℕ → ℕ → ℚ) (num_nodes : ℕ)
    (cache : List (String × List (List ℕ))) :
    Option (List (List ℕ) × String × List (String × List (List ℕ))) :=
  match List.lookup graphormerKey cache with
  | some dist => some (dist, pairTag, cache)
  | none =>
    Option.map (fun dist => (dist, pairTag, (graphormerKey, dist) :: cache))
      (graphormerDistMatrix adj num_nodes)

/-- Entry `(i, j)` of a matrix stored as a list of rows. -/
def distEntry (M : List (List ℕ)) (i j : ℕ) : Option ℕ :=
  (M.get? i).bind (fun row => row.get? j)

/-- Reference-level model of `compute_graphormer_distances` for aliasing
questions: matrices live in a `store` (the heap) and both the cache and the
return value hold indices into it.  On a miss, `np.asarray` allocates one
fresh matrix, the cache entry `cache['graphormer'] = dist` stores a reference
to it, and the very same reference is returned; on a hit the cached reference
is returned. -/
def computeGraphormerRefModel (adj : ℕ → ℕ → ℚ) (num_nodes : ℕ)
    (cache : List (String × ℕ)) (store : List (List (List ℕ))) :
    Option (ℕ × String × List (String × ℕ) × List (List (List ℕ))) :=
  match List.lookup graphormerKey cache with
  | some r => some (r, pairTag, cache, store)
  | none =>
    Option.map
      (fun dist =>
        (store.length, pairTag, (graphormerKey, store.length) :: cache,
          store ++ [dist]))
      (graphormerDistMatrix adj num_nodes)

/-- BFS step: a set of nodes together with every node of `0..n-1` adjacent to
it. -/
def reachStep (adj : ℕ → ℕ → ℚ) (n : ℕ) (S : Finset ℕ) : Finset ℕ :=
  S ∪ (Finset.range n).filter (fun j => ∃ m ∈ S, edgeB adj m j = true)

/-- Nodes reachable from `i` by a walk of at most `k` edges. -/
def reach (adj : ℕ → ℕ → ℚ) (n i : ℕ) : ℕ → Finset ℕ
  | 0 => {i}
  | k+1 => reachStep adj n (reach adj n i k)

/-- Connectivity of the graph built from `adj` on nodes `0..n-1`: every
ordered pair of nodes is joined by some walk. -/
def Connected (adj : ℕ → ℕ → ℚ) (n : ℕ) : Prop :=
  ∀ i, i < n → ∀ j, j < n → ∃ d, hasWalkB adj n d i j = true

/-- The 4-cycle 0-1-2-3-0 used in the spec's worked example. -/
def adj4 : ℕ → ℕ → ℚ := fun i j =>
  if (i = 0 ∧ j = 1) ∨ (i = 1 ∧ j = 0) ∨ (i = 1 ∧ j = 2) ∨ (i = 2 ∧ j = 1) ∨
     (i = 2 ∧ j = 3) ∨ (i = 3 ∧ j = 2) ∨ (i = 3 ∧ j = 0) ∨ (i = 0 ∧ j = 3)
  then 1 else 0

/-- The one-node graph with no edges, used for concrete cache scenarios. -/
def adj1 : ℕ → ℕ → ℚ := fun _ _ => 0

theorem zeroMissingInput_length (input : List ℚ) (target : List (Option ℚ)) :
    (zeroMissingInput input target).length = min input.length target.length := by
  simp [zeroMissingInput]

theorem zeroMissingWeight_length (w : List ℚ) (target : List (Option ℚ)) :
    (zeroMissingWeight w target).length = min w.length target.length := by
  simp [zeroMissingWeight]

theorem trimTargets_length (target : List (Option ℚ)) :
    (trimTargets target).length = countNonMissing target := by
  induction target with
  | nil => simp [trimTargets, countNonMissing]
  | cons t ts ih =>
    cases t <;> simp [trimTargets, countNonMissing, List.countP_cons] at ih ⊢ <;>
      simp [ih]

theorem trimBy_length (target : List (Option ℚ)) (xs : List ℚ)
    (hlen : xs.length = target.length) :
    (trimBy target xs).length = countNonMissing target := by
  induction xs generalizing target with
  | nil =>
    have : target = [] := List.length_eq_zero.mp hlen.symm
    simp [this, trimBy, countNonMissing]
  | cons x xs ih =>
    cases target with
    | nil => simp at hlen
    | cons t ts =>
      have hlen' : xs.length = ts.length := by simpa using hlen
      cases t <;> simp [trimBy, countNonMissing, List.countP_cons] at ih ⊢ <;>
        simpa [trimBy, countNonMissing] using ih ts hlen'

theorem countNonMissing_le_length (target : List (Option ℚ)) :
    countNonMissing target ≤ target.length :=
  List.countP_le_length _

theorem sum_zipWith_zeroMissing (f : ℚ → ℚ → ℚ) (hf : f 0 0 = 0)
    (input : List ℚ) (target : List (Option ℚ)) :
    (List.zipWith f (zeroMissingInput input target) (zeroMissingTarget target)).sum
      = (List.zipWith f (trimBy target input) (trimTargets target)).sum := by
  induction input generalizing target with
  | nil => simp [zeroMissingInput, trimBy]
  | cons x xs ih =>
    cases target with
    | nil => simp [zeroMissingInput, zeroMissingTarget, trimBy, trimTargets]
    | cons t ts =>
      cases t with
      | some v =>
        simp [zeroMissingInput, zeroMissingTarget, trimBy, trimTargets] at ih ⊢
        simp [ih ts]
      | none =>
        simp [zeroMissingInput, zeroMissingTarget, trimBy, trimTargets, hf] at ih ⊢
        simp [ih ts]

theorem sum_bce_zeroMissing (ell : ℚ → ℚ → ℚ) (w input : List ℚ)
    (target : List (Option ℚ)) (hw : w.length = target.length)
    (hi : input.length = target.length) :
    (List.zipWith (fun a z => a * z) (zeroMissingWeight w target)
        (List.zipWith ell input (bceNeutralTarget input target))).sum
      = (List.zipWith (fun a z => a * z) (trimBy target w)
          (List.zipWith ell (trimBy target input) (trimTargets target))).sum := by
  induction target generalizing w input with
  | nil =>
    have hw0 : w = [] := List.length_eq_zero.mp hw
    simp [hw0, zeroMissingWeight, trimBy]
  | cons t ts ih =>
    cases w with
    | nil => simp at hw
    | cons w0 ws =>
      cases input with
      | nil => simp at hi
      | cons x xs =>
        have hw' : ws.length = ts.length := by simpa using hw
        have hi' : xs.length = ts.length := by simpa using hi
        cases t with
        | some v =>
          simp [zeroMissingWeight, bceNeutralTarget, trimBy, trimTargets] at ih ⊢
          simp [ih ws xs hw' hi']
        | none =>
          simp [zeroMissingWeight, bceNeutralTarget, trimBy, trimTargets] at ih ⊢
          simp [ih ws xs hw' hi']

theorem trimBy_replicate_one (target : List (Option ℚ)) :
    trimBy target (List.replicate target.length 1)
      = List.replicate (countNonMissing target) 1 := by
  induction target with
  | nil => simp [trimBy, countNonMissing]
  | cons t ts ih =>
    cases t <;>
      simp [trimBy, countNonMissing, List.countP_cons, List.replicate_succ] at ih ⊢ <;>
      simp [ih]

theorem trimBy_all_some (target : List (Option ℚ)) (xs : List ℚ)
    (h : ∀ t ∈ target, t.isSome = true) (hlen : xs.length = target.length) :
    trimBy target xs = xs := by
  induction xs generalizing target with
  | nil => simp [trimBy]
  | cons x xs ih =>
    cases target with
    | nil => simp at hlen
    | cons t ts =>
      have hlen' : xs.length = ts.length := by simpa using hlen
      have ht : t.isSome = true := h t (by simp)
      have hts : ∀ u ∈ ts, u.isSome = true := fun u hu => h u (by simp [hu])
      simp [trimBy, ht] at ih ⊢
      exact ih ts hts hlen'

theorem ieee_step (S : ℚ) (N count : ℕ) (hc : 0 < count) (hcN : count ≤ N) :
    ieeeDiv (S / (N : ℚ) * (N : ℚ)) ((count : ℚ))
      = FlVal.fin (S / (count : ℚ)) := by
  have hN : (N : ℚ) ≠ 0 := by
    have : 0 < N := lt_of_lt_of_le hc hcN
    exact_mod_cast this.ne'
  have hcQ : ((count : ℚ)) ≠ 0 := by exact_mod_cast hc.ne'
  rw [div_mul_cancel₀ _ hN]
  unfold ieeeDiv
  rw [if_neg hcQ]

theorem rescaleLoss_eq_fin (loss : ℚ) (target : List (Option ℚ))
    (hpos : 0 < countNonMissing target) :
    rescaleLoss loss target
      = FlVal.fin (loss * (target.length : ℚ) / ((countNonMissing target : ℚ))) := by
  have hcN := countNonMissing_le_length target
  have hN0 : ¬(target.length = 0) := by omega
  have hcQ : ((countNonMissing target : ℚ)) ≠ 0 := by exact_mod_cast hpos.ne'
  rw [rescaleLoss, if_neg hN0, ieeeDiv, if_neg hcQ]

theorem mseLossIPU_eq_trimmed (input : List ℚ) (target : List (Option ℚ))
    (hlen : input.length = target.length) (hpos : 0 < countNonMissing target) :
    mseLossIPU input target
      = FlVal.fin (mseLoss (trimBy target input) (trimTargets target)) := by
  have hcN := countNonMissing_le_length target
  simp only [mseLossIPU, MSELossIPU_forward, mseLoss]
  rw [rescaleLoss_eq_fin _ _ hpos]
  rw [zeroMissingInput_length, hlen, min_self]
  rw [sum_zipWith_zeroMissing _ (by norm_num)]
  rw [trimBy_length target input hlen]
  have := ieee_step ((List.zipWith (fun x y => (x - y) ^ 2) (trimBy target input)
      (trimTargets target)).sum) target.length (countNonMissing target) hpos hcN
  rw [ieeeDiv, if_neg (by exact_mod_cast hpos.ne' : ((countNonMissing target : ℚ)) ≠ 0)] at this
  exact congrArg FlVal.fin (congrArg (· / ((countNonMissing target : ℚ)))
    (by rw [div_mul_cancel₀]
        have hN : 0 < target.length := lt_of_lt_of_le hpos hcN
        exact_mod_cast hN.ne'))

theorem l1LossIPU_eq_trimmed (input : List ℚ) (target : List (Option ℚ))
    (hlen : input.length = target.length) (hpos : 0 < countNonMissing target) :
    l1LossIPU input target
      = FlVal.fin (l1Loss (trimBy target input) (trimTargets target)) := by
  have hcN := countNonMissing_le_length target
  simp only [l1LossIPU, L1LossIPU_forward, l1Loss]
  rw [rescaleLoss_eq_fin _ _ hpos]
  rw [zeroMissingInput_length, hlen, min_self]
  rw [sum_zipWith_zeroMissing _ (by norm_num)]
  rw [trimBy_length target input hlen]
  exact congrArg FlVal.fin (congrArg (· / ((countNonMissing target : ℚ)))
    (by rw [div_mul_cancel₀]
        have hN : 0 < target.length := lt_of_lt_of_le hpos hcN
        exact_mod_cast hN.ne'))

theorem bceLossIPU_eq_trimmed (ell : ℚ → ℚ → ℚ) (w input : List ℚ)
    (target : List (Option ℚ)) (hw : w.length = target.length)
    (hlen : input.length = target.length) (hpos : 0 < countNonMissing target) :
    bceLossIPU ell (some w) input target
      = FlVal.fin (bceLoss ell (trimBy target w) (trimBy target input)
          (trimTargets target)) := by
  have hcN := countNonMissing_le_length target
  simp only [bceLossIPU, BCELossIPU_forward, bceLoss]
  rw [rescaleLoss_eq_fin _ _ hpos]
  rw [hlen]
  rw [sum_bce_zeroMissing ell w input target hw hlen]
  rw [trimBy_length target input hlen]
  exact congrArg FlVal.fin (congrArg (· / ((countNonMissing target : ℚ)))
    (by rw [div_mul_cancel₀]
        have hN : 0 < target.length := lt_of_lt_of_le hpos hcN
        exact_mod_cast hN.ne'))

theorem bceLossIPU_none_eq_some_replicate (ell : ℚ → ℚ → ℚ) (input : List ℚ)
    (target : List (Option ℚ)) :
    bceLossIPU ell none input target
      = bceLossIPU ell (some (List.replicate target.length 1)) input target := rfl

theorem countNonMissing_all_some (target : List (Option ℚ))
    (h : ∀ t ∈ target, t.isSome = true) :
    countNonMissing target = target.length :=
  List.countP_eq_length.mpr h

/-- C1: for each of the three masked loss variants, on same-shape tensors with
at least one non-missing target entry, the masked loss on the full tensors
equals the unmasked underlying loss on the tensors with the missing positions
removed (for `BCELossIPU` with the layer weight trimmed the same way, and with
all-ones weight when the layer has none); in particular, with no missing
entry, the masked loss equals the unmasked loss on the original tensors. -/
theorem C1_masked_loss_eq_loss_on_trimmed (input : List ℚ)
    (target : List (Option ℚ)) (hlen : input.length = target.length)
    (hpos : 0 < countNonMissing target) :
    (mseLossIPU input target
        = FlVal.fin (mseLoss (trimBy target input) (trimTargets target))) ∧
    (l1LossIPU input target
        = FlVal.fin (l1Loss (trimBy target input) (trimTargets target))) ∧
    (∀ ell w, w.length = target.length →
      bceLossIPU ell (some w) input target
        = FlVal.fin (bceLoss ell (trimBy target w) (trimBy target input)
            (trimTargets target))) ∧
    (∀ ell, bceLossIPU ell none input target
        = FlVal.fin (bceLoss ell (List.replicate (countNonMissing target) 1)
            (trimBy target input) (trimTargets target))) ∧
    ((∀ t ∈ target, t.isSome = true) →
      mseLossIPU input target = FlVal.fin (mseLoss input (trimTargets target)) ∧
      l1LossIPU input target = FlVal.fin (l1Loss input (trimTargets target)) ∧
      ∀ ell w, w.length = target.length →
        bceLossIPU ell (some w) input target
          = FlVal.fin (bceLoss ell w input (trimTargets target))) := by
  refine ⟨mseLossIPU_eq_trimmed input target hlen hpos,
    l1LossIPU_eq_trimmed input target hlen hpos,
    fun ell w hw => bceLossIPU_eq_trimmed ell w input target hw hlen hpos,
    fun ell => ?_, fun hall => ?_⟩
  · rw [bceLossIPU_none_eq_some_replicate,
      bceLossIPU_eq_trimmed ell _ input target (by simp) hlen hpos,
      trimBy_replicate_one]
  · refine ⟨?_, ?_, fun ell w hw => ?_⟩
    · rw [mseLossIPU_eq_trimmed input target hlen hpos,
        trimBy_all_some target input hall hlen]
    · rw [l1LossIPU_eq_trimmed input target hlen hpos,
        trimBy_all_some target input hall hlen]
    · rw [bceLossIPU_eq_trimmed ell w input target hw hlen hpos,
        trimBy_all_some target input hall hlen, trimBy_all_some target w hall hw]

/-- Witness for C1 at a concrete input: predictions `[1, 2, 4]`, targets
`[0, missing, 1]`. -/
theorem C1_witness :
    (mseLossIPU [1, 2, 4] [some 0, none, some 1]
        = FlVal.fin (mseLoss (trimBy [some 0, none, some 1] [1, 2, 4])
            (trimTargets [some 0, none, some 1]))) ∧
    mseLossIPU [1, 2, 4] [some 0, none, some 1] = FlVal.fin 5 := by
  have h := C1_masked_loss_eq_loss_on_trimmed [1, 2, 4] [some 0, none, some 1]
    (by simp) (by simp [countNonMissing])
  refine ⟨h.1, ?_⟩
  rw [h.1]
  simp [trimBy, trimTargets, mseLoss]
  norm_num

/-- C4: each masked loss variant returns the raw mean-reduced loss of the
underlying statistic on the neutralized tensors, multiplied by the total
element count and divided by the count of non-missing target elements. -/
theorem C4_rescale_formula (input : List ℚ) (target : List (Option ℚ))
    (hpos : 0 < countNonMissing target) :
    (mseLossIPU input target
        = FlVal.fin (mseLoss (zeroMissingInput input target)
            (zeroMissingTarget target) * (target.length : ℚ)
              / ((countNonMissing target : ℚ)))) ∧
    (l1LossIPU input target
        = FlVal.fin (l1Loss (zeroMissingInput input target)
            (zeroMissingTarget target) * (target.length : ℚ)
              / ((countNonMissing target : ℚ)))) ∧
    (∀ ell w, bceLossIPU ell (some w) input target
        = FlVal.fin (bceLoss ell (zeroMissingWeight w target) input
            (bceNeutralTarget input target) * (target.length : ℚ)
              / ((countNonMissing target : ℚ)))) ∧
    (∀ ell, bceLossIPU ell none input target
        = FlVal.fin (bceLoss ell
            (zeroMissingWeight (List.replicate target.length 1) target) input
            (bceNeutralTarget input target) * (target.length : ℚ)
              / ((countNonMissing target : ℚ)))) := by
  refine ⟨?_, ?_, fun ell w => ?_, fun ell => ?_⟩
  · simp only [mseLossIPU, MSELossIPU_forward]
    rw [rescaleLoss_eq_fin _ _ hpos]
  · simp only [l1LossIPU, L1LossIPU_forward]
    rw [rescaleLoss_eq_fin _ _ hpos]
  · simp only [bceLossIPU, BCELossIPU_forward]
    rw [rescaleLoss_eq_fin _ _ hpos]
  · simp only [bceLossIPU, BCELossIPU_forward]
    rw [rescaleLoss_eq_fin _ _ hpos]

/-- Witness for C4 at a concrete input. -/
theorem C4_witness :
    mseLossIPU [1, 2] [some 0, none]
      = FlVal.fin (mseLoss (zeroMissingInput [1, 2] [some 0, none])
          (zeroMissingTarget [some 0, none]) * ((2 : ℕ) : ℚ)
            / ((countNonMissing [some 0, none] : ℚ))) := by
  have h := C4_rescale_formula [1, 2] [some 0, none] (by simp [countNonMissing])
  exact h.1

/-- C5: in `BCELossIPU`, every missing-target position gets the target value
`0` when the prediction there is below `0.5` and `1` otherwise, and its
effective weight is set to `0`. -/
theorem C5_bce_substitution_by_prediction (input : List ℚ)
    (target : List (Option ℚ)) (w : List ℚ) (i : ℕ) (x : ℚ)
    (hmiss : target.get? i = some none) (hx : input.get? i = some x)
    (hwi : i < w.length) :
    (bceNeutralTarget input target).get? i
        = some (if x < 1/2 then 0 else 1) ∧
    (zeroMissingWeight w target).get? i = some 0 := by
  obtain ⟨wv, hwv⟩ : ∃ v, w.get? i = some v :=
    ⟨w.get ⟨i, hwi⟩, List.get?_eq_get hwi⟩
  constructor
  · rw [bceNeutralTarget, List.get?_zipWith', hx, hmiss]
    rfl
  · rw [zeroMissingWeight, List.get?_zipWith', hwv, hmiss]
    rfl

/-- Witness for C5: prediction `3/4` at a missing position yields substituted
target `1` and weight `0`. -/
theorem C5_witness :
    (bceNeutralTarget [3/4] [none]).get? 0 = some 1 ∧
    (zeroMissingWeight [2] [none]).get? 0 = some 0 := by
  have h := C5_bce_substitution_by_prediction [3/4] [none] [2] 0 (3/4) rfl rfl
    (by norm_num)
  refine ⟨?_, h.2⟩
  rw [h.1]
  norm_num

theorem sum_zipWith_all_missing (f : ℚ → ℚ → ℚ) (hf : f 0 0 = 0)
    (input : List ℚ) (target : List (Option ℚ)) (hall : ∀ t ∈ target, t = none) :
    (List.zipWith f (zeroMissingInput input target)
      (zeroMissingTarget target)).sum = 0 := by
  induction input generalizing target with
  | nil => simp [zeroMissingInput]
  | cons x xs ih =>
    cases target with
    | nil => simp [zeroMissingInput, zeroMissingTarget]
    | cons t ts =>
      have ht : t = none := hall t (by simp)
      have hts : ∀ u ∈ ts, u = none := fun u hu => hall u (by simp [hu])
      subst ht
      simp [zeroMissingInput, zeroMissingTarget, hf]
      exact ih ts hts

theorem sum_bce_all_missing (ell : ℚ → ℚ → ℚ) (w input : List ℚ)
    (target : List (Option ℚ)) (hall : ∀ t ∈ target, t = none) :
    (List.zipWith (fun a z => a * z) (zeroMissingWeight w target)
      (List.zipWith ell input (bceNeutralTarget input target))).sum = 0 := by
  induction target generalizing w input with
  | nil => simp [zeroMissingWeight]
  | cons t ts ih =>
    have ht : t = none := hall t (by simp)
    have hts : ∀ u ∈ ts, u = none := fun u hu => hall u (by simp [hu])
    subst ht
    cases w with
    | nil => simp [zeroMissingWeight]
    | cons w0 ws =>
      cases input with
      | nil => simp [zeroMissingWeight, bceNeutralTarget]
      | cons x xs =>
        simp [zeroMissingWeight, bceNeutralTarget] at ih ⊢
        exact ih ws xs hts

theorem countNonMissing_all_missing (target : List (Option ℚ))
    (hall : ∀ t ∈ target, t = none) : countNonMissing target = 0 := by
  rw [countNonMissing, List.countP_eq_zero]
  intro t ht
  rw [hall t ht]
  simp

/-- C6: when every target entry is missing, each masked loss variant returns
the non-finite NaN sentinel, never a finite number. -/
theorem C6_all_missing_gives_nan (input : List ℚ) (target : List (Option ℚ))
    (hall : ∀ t ∈ target, t = none) :
    mseLossIPU input target = FlVal.nan ∧
    l1LossIPU input target = FlVal.nan ∧
    (∀ ell sw, bceLossIPU ell sw input target = FlVal.nan) := by
  have hcount := countNonMissing_all_missing target hall
  have hstep : ∀ loss : ℚ, loss * (target.length : ℚ)
      / ((countNonMissing target : ℚ)) = loss * (target.length : ℚ) / 0 := by
    intro loss
    rw [hcount]
    norm_num
  have hres : ∀ loss : ℚ, loss = 0 → rescaleLoss loss target = FlVal.nan := by
    intro loss hloss
    rw [rescaleLoss, hcount]
    subst hloss
    simp [ieeeDiv]
  refine ⟨?_, ?_, fun ell sw => ?_⟩
  · simp only [mseLossIPU, MSELossIPU_forward]
    exact hres _ (by rw [mseLoss, sum_zipWith_all_missing _ (by norm_num) _ _ hall,
      zero_div])
  · simp only [l1LossIPU, L1LossIPU_forward]
    exact hres _ (by rw [l1Loss, sum_zipWith_all_missing _ (by norm_num) _ _ hall,
      zero_div])
  · cases sw with
    | none =>
      simp only [bceLossIPU, BCELossIPU_forward]
      exact hres _ (by rw [bceLoss, sum_bce_all_missing ell _ _ _ hall, zero_div])
    | some w =>
      simp only [bceLossIPU, BCELossIPU_forward]
      exact hres _ (by rw [bceLoss, sum_bce_all_missing ell _ _ _ hall, zero_div])

/-- Witness for C6 at a concrete all-missing input. -/
theorem C6_witness :
    mseLossIPU [1, 2] [none, none] = FlVal.nan ∧
    l1LossIPU [1, 2] [none, none] = FlVal.nan := by
  have h := C6_all_missing_gives_nan [1, 2] [none, none] (by simp)
  exact ⟨h.1, h.2.1⟩

/-- C10: `BCELossIPU.forward` restores the `self.weight` attribute to its
pre-call value (element-wise; `None` stays `None`) even though it is replaced
during the computation, so a repeated call on the same layer with the same
inputs returns the same loss and leaves the same attribute value. -/
theorem C10_bce_weight_attribute_restored (ell : ℚ → ℚ → ℚ)
    (w : Option (List ℚ)) (input : List ℚ) (target : List (Option ℚ)) :
    (BCELossIPU_forward ell w input target).2 = w ∧
    BCELossIPU_forward ell (BCELossIPU_forward ell w input target).2 input target
      = BCELossIPU_forward ell w input target :=
  ⟨rfl, rfl⟩

theorem toIntTrunc_one : toIntTrunc 1 = 1 := by decide

/-- C7: in `precision_ipu`, `accuracy_ipu` and `recall_ipu`, every
missing-target position has its target forced to class `1` and its prediction
forced to class `0` in the arguments handed to the underlying statistic (these
functions carry no per-element weight that could be zeroed instead). -/
theorem C7_substitution_by_fixed_class (preds : List ℚ)
    (target : List (Option ℚ)) (i : ℕ) (x : ℚ)
    (hmiss : target.get? i = some none) (hx : preds.get? i = some x) :
    ((precision_ipu preds target).1.2.get? i = some 1 ∧
      (precision_ipu preds target).1.1.get? i = some 0) ∧
    ((accuracy_ipu preds target).1.2.get? i = some 1 ∧
      (accuracy_ipu preds target).1.1.get? i = some 0) ∧
    ((recall_ipu preds target).1.2.get? i = some 1 ∧
      (recall_ipu preds target).1.1.get? i = some 0) := by
  have htarget : ((target.map (fun t => t.getD 1)).map toIntTrunc).get? i
      = some 1 := by
    rw [List.get?_map, List.get?_map, hmiss]
    simp [toIntTrunc_one]
  have hpreds : (List.zipWith (fun p t => if t.isSome then p else 0)
      preds target).get? i = some 0 := by
    rw [List.get?_zipWith', hx, hmiss]
    rfl
  exact ⟨⟨htarget, hpreds⟩, ⟨htarget, hpreds⟩, ⟨htarget, hpreds⟩⟩

/-- Witness for C7 at a concrete input with one missing target. -/
theorem C7_witness :
    (precision_ipu [1/2] [none]).1.2.get? 0 = some 1 ∧
    (precision_ipu [1/2] [none]).1.1.get? 0 = some 0 ∧
    (accuracy_ipu [1/2] [none]).1.2.get? 0 = some 1 ∧
    (recall_ipu [1/2] [none]).1.1.get? 0 = some 0 := by
  have h := C7_substitution_by_fixed_class [1/2] [none] 0 (1/2) rfl rfl
  exact ⟨h.1.1, h.1.2, h.2.1.1, h.2.2.2⟩

/-- Counterexample to C8 as stated: `auroc_ipu` and `average_precision_ipu`
write through a caller-supplied `sample_weights` array, zeroing it at
missing-target positions; with predictions `[1/2]`, targets `[missing]` and
caller weights `[1]`, the caller's weight array reads `[0]` after the call. -/
theorem C8_counterexample :
    (auroc_ipu [1/2] [none] (some [1])).2.2.2 ≠ some [1] ∧
    (average_precision_ipu [1/2] [none] (some [1])).2.2.2 ≠ some [1] := by
  constructor <;> simp [auroc_ipu, average_precision_ipu, zeroMissingWeight]

theorem zeroMissingWeight_all_some (target : List (Option ℚ)) (w : List ℚ)
    (h : ∀ t ∈ target, t.isSome = true) (hlen : w.length = target.length) :
    zeroMissingWeight w target = w := by
  induction w generalizing target with
  | nil => simp [zeroMissingWeight]
  | cons x xs ih =>
    cases target with
    | nil => simp at hlen
    | cons t ts =>
      have hlen' : xs.length = ts.length := by simpa using hlen
      have ht : t.isSome = true := h t (by simp)
      have hts : ∀ u ∈ ts, u.isSome = true := fun u hu => h u (by simp [hu])
      simp [zeroMissingWeight, ht] at ih ⊢
      exact ih ts hts hlen'

/-- C8 amended: every operation leaves the caller's prediction and target
buffers unchanged, and the loss variants leave the layer weight value
unchanged; but `auroc_ipu` and `average_precision_ipu` zero a caller-supplied
`sample_weights` array in place at missing-target positions (it is returned
intact only when no weights were passed or no target is missing). -/
theorem C8_amended_buffer_effects (input preds : List ℚ)
    (target : List (Option ℚ)) (sw : List ℚ) (ell : ℚ → ℚ → ℚ)
    (wopt : Option (List ℚ)) :
    ((MSELossIPU_forward input target).2 = (input, target)) ∧
    ((L1LossIPU_forward input target).2 = (input, target)) ∧
    ((BCELossIPU_forward ell wopt input target).2 = wopt) ∧
    ((precision_ipu preds target).2 = (preds, target)) ∧
    ((accuracy_ipu preds target).2 = (preds, target)) ∧
    ((recall_ipu preds target).2 = (preds, target)) ∧
    ((auroc_ipu preds target none).2 = (preds, target, none)) ∧
    ((average_precision_ipu preds target none).2 = (preds, target, none)) ∧
    ((auroc_ipu preds target (some sw)).2
        = (preds, target, some (zeroMissingWeight sw target))) ∧
    ((average_precision_ipu preds target (some sw)).2
        = (preds, target, some (zeroMissingWeight sw target))) ∧
    ((∀ t ∈ target, t.isSome = true) → sw.length = target.length →
      (auroc_ipu preds target (some sw)).2.2.2 = some sw ∧
      (average_precision_ipu preds target (some sw)).2.2.2 = some sw) := by
  refine ⟨rfl, rfl, rfl, rfl, rfl, rfl, rfl, rfl, rfl, rfl, fun hall hlen => ?_⟩
  constructor <;>
    · show some (zeroMissingWeight sw target) = some sw
      rw [zeroMissingWeight_all_some target sw hall hlen]

/-- Witness for C8's amended statement at concrete inputs. -/
theorem C8_witness :
    (auroc_ipu [1] [some 1] (some [2])).2.2.2 = some [2] ∧
    (MSELossIPU_forward [1] [some 1]).2 = ([1], [some 1]) := by
  have h := C8_amended_buffer_effects [1] [1] [some 1] [2]
    (fun x _ => x) none
  exact ⟨(h.2.2.2.2.2.2.2.2.2.2 (by simp) (by simp)).1, h.1⟩

/-- C2: on a cache hit `compute_graphormer_distances` returns the cached
matrix with the cache unchanged; after any successful call, the returned
matrix is stored under the engine's key in the returned cache, and a second
call with that cache returns the identical value. -/
theorem C2_cache_memoization (adj : ℕ → ℕ → ℚ) (num_nodes : ℕ)
    (cache : List (String × List (List ℕ))) :
    (∀ M, List.lookup graphormerKey cache = some M →
      compute_graphormer_distances adj num_nodes cache
        = some (M, pairTag, cache)) ∧
    (∀ D tag cache',
      compute_graphormer_distances adj num_nodes cache
          = some (D, tag, cache') →
      List.lookup graphormerKey cache' = some D ∧
      compute_graphormer_distances adj num_nodes cache'
        = some (D, tag, cache')) := by
  constructor
  · intro M hM
    rw [compute_graphormer_distances, hM]
  · intro D tag cache' h
    rw [compute_graphormer_distances] at h
    cases hl : List.lookup graphormerKey cache with
    | some M =>
      rw [hl] at h
      simp only [Option.some.injEq, Prod.mk.injEq] at h
      obtain ⟨hD, htag, hcache⟩ := h
      subst hD
      subst htag
      subst hcache
      exact ⟨hl, by rw [compute_graphormer_distances, hl]⟩
    | none =>
      rw [hl] at h
      cases hg : graphormerDistMatrix adj num_nodes with
      | none => rw [hg] at h; simp at h
      | some D0 =>
        rw [hg] at h
        simp only [Option.map_some', Option.some.injEq, Prod.mk.injEq] at h
        obtain ⟨hD, htag, hcache⟩ := h
        subst hD
        subst htag
        subst hcache
        have hlook : List.lookup graphormerKey
            ((graphormerKey, D0) :: cache) = some D0 := by
          simp [List.lookup]
        exact ⟨hlook, by rw [compute_graphormer_distances, hlook]⟩

/-- Witness for C2: a concrete hit returns the cached matrix unchanged, and
after a concrete miss the result is cached and the second call repeats it. -/
theorem C2_witness :
    (compute_graphormer_distances adj1 1 [(graphormerKey, [[7]])]
        = some ([[7]], pairTag, [(graphormerKey, [[7]])])) ∧
    List.lookup graphormerKey [(graphormerKey, [[0]])] = some [[0]] ∧
    compute_graphormer_distances adj1 1 [(graphormerKey, [[0]])]
        = some ([[0]], pairTag, [(graphormerKey, [[0]])]) := by
  have h := C2_cache_memoization adj1 1 [(graphormerKey, [[7]])]
  have h0 := C2_cache_memoization adj1 1 []
  have hmiss : compute_graphormer_distances adj1 1 []
      = some ([[0]], pairTag, [(graphormerKey, [[0]])]) := by decide
  obtain ⟨hl, hsecond⟩ := h0.2 [[0]] pairTag [(graphormerKey, [[0]])] hmiss
  exact ⟨h.1 [[7]] (by decide), hl, hsecond⟩

/-- Counterexample to C9 as stated: on a miss with an empty cache and empty
store, the returned reference `0` is exactly the reference stored in the
cache, so writing through the returned matrix changes what the cached entry
dereferences to. -/
theorem C9_counterexample :
    computeGraphormerRefModel adj1 1 [] []
        = some (0, pairTag, [(graphormerKey, 0)], [[[0]]]) ∧
    List.lookup graphormerKey [(graphormerKey, 0)] = some 0 ∧
    (List.set [[[0]]] 0 [[9]]).get? 0
      ≠ ([[[0]]] : List (List (List ℕ))).get? 0 := by
  refine ⟨rfl, by decide, by decide⟩

/-- C9 amended: the matrix reference returned by
`compute_graphormer_distances` is exactly the reference stored in the cache
(the returned array aliases the cached entry); the operation's only side
effects are the cache insertion and the allocation of the new matrix —
pre-existing store entries are untouched and the cache is either unchanged or
extended by the one new binding. -/
theorem C9_amended_alias_and_frame (adj : ℕ → ℕ → ℚ) (n : ℕ)
    (cache : List (String × ℕ)) (store : List (List (List ℕ))) (r : ℕ)
    (tag : String) (cache' : List (String × ℕ))
    (store' : List (List (List ℕ)))
    (h : computeGraphormerRefModel adj n cache store
      = some (r, tag, cache', store')) :
    List.lookup graphormerKey cache' = some r ∧
    (∀ k, k < store.length → store'.get? k = store.get? k) ∧
    (cache' = cache ∨ cache' = (graphormerKey, r) :: cache) := by
  rw [computeGraphormerRefModel] at h
  cases hl : List.lookup graphormerKey cache with
  | some r0 =>
    rw [hl] at h
    simp only [Option.some.injEq, Prod.mk.injEq] at h
    obtain ⟨hr, _, hcache, hstore⟩ := h
    subst hr
    subst hcache
    subst hstore
    exact ⟨hl, fun k _ => rfl, Or.inl rfl⟩
  | none =>
    rw [hl] at h
    cases hg : graphormerDistMatrix adj n with
    | none => rw [hg] at h; simp at h
    | some D0 =>
      rw [hg] at h
      simp only [Option.map_some', Option.some.injEq, Prod.mk.injEq] at h
      obtain ⟨hr, _, hcache, hstore⟩ := h
      subst hr
      subst hcache
      subst hstore
      refine ⟨by simp [List.lookup], fun k hk => ?_, Or.inr rfl⟩
      exact List.get?_append hk

/-- Witness for C9's amended statement at a concrete input. -/
theorem C9_witness :
    List.lookup graphormerKey [(graphormerKey, 0)] = some 0 ∧
    (([(graphormerKey, 0)] : List (String × ℕ)) = [] ∨
      ([(graphormerKey, 0)] : List (String × ℕ)) = [(graphormerKey, 0)]) := by
  have h := C9_amended_alias_and_frame adj1 1 [] [] 0 pairTag
    [(graphormerKey, 0)] [[[0]]] rfl
  exact ⟨h.1, h.2.2⟩

theorem edgeB_symm (adj : ℕ → ℕ → ℚ) (i j : ℕ) :
    edgeB adj i j = edgeB adj j i :=
  decide_eq_decide.mpr or_comm

theorem hasWalkB_zero_iff (adj : ℕ → ℕ → ℚ) (n i j : ℕ) :
    hasWalkB adj n 0 i j = true ↔ i = j := by
  simp [hasWalkB]

theorem hasWalkB_succ_iff (adj : ℕ → ℕ → ℚ) (n k i j : ℕ) :
    hasWalkB adj n (k+1) i j = true
      ↔ ∃ m, m < n ∧ edgeB adj i m = true ∧ hasWalkB adj n k m j = true := by
  simp [hasWalkB, List.any_eq_true, List.mem_range, Bool.and_eq_true]

theorem hasWalkB_snoc_iff (adj : ℕ → ℕ → ℚ) (n : ℕ) (k : ℕ) :
    ∀ i j, i < n → j < n →
      (hasWalkB adj n (k+1) i j = true
        ↔ ∃ m, m < n ∧ hasWalkB adj n k i m = true ∧ edgeB adj m j = true) := by
  induction k with
  | zero =>
    intro i j hi hj
    rw [hasWalkB_succ_iff]
    constructor
    · rintro ⟨m, hm, he, hw⟩
      rw [hasWalkB_zero_iff] at hw
      subst hw
      exact ⟨i, hi, (hasWalkB_zero_iff adj n i i).mpr rfl, he⟩
    · rintro ⟨m, _, hw, he⟩
      rw [hasWalkB_zero_iff] at hw
      subst hw
      exact ⟨j, hj, he, (hasWalkB_zero_iff adj n j j).mpr rfl⟩
  | succ k ih =>
    intro i j hi hj
    rw [hasWalkB_succ_iff]
    constructor
    · rintro ⟨m, hm, he, hw⟩
      obtain ⟨m', hm', hw', he'⟩ := (ih m j hm hj).mp hw
      exact ⟨m', hm', (hasWalkB_succ_iff adj n k i m').mpr ⟨m, hm, he, hw'⟩, he'⟩
    · rintro ⟨m', hm', hw', he'⟩
      obtain ⟨m, hm, he, hw⟩ := (hasWalkB_succ_iff adj n k i m').mp hw'
      exact ⟨m, hm, he, (ih m j hm hj).mpr ⟨m', hm', hw, he'⟩⟩

theorem hasWalkB_symm_iff (adj : ℕ → ℕ → ℚ) (n : ℕ) (k : ℕ) :
    ∀ i j, i < n → j < n →
      (hasWalkB adj n k i j = true ↔ hasWalkB adj n k j i = true) := by
  induction k with
  | zero =>
    intro i j _ _
    rw [hasWalkB_zero_iff, hasWalkB_zero_iff]
    exact eq_comm
  | succ k ih =>
    intro i j hi hj
    rw [hasWalkB_succ_iff, hasWalkB_snoc_iff adj n k j i hj hi]
    constructor
    · rintro ⟨m, hm, he, hw⟩
      exact ⟨m, hm, (ih m j hm hj).mp hw, by rw [edgeB_symm]; exact he⟩
    · rintro ⟨m, hm, hw, he⟩
      exact ⟨m, hm, by rw [edgeB_symm]; exact he, (ih j m hj hm).mp hw⟩

theorem hasWalkB_symm (adj : ℕ → ℕ → ℚ) (n k i j : ℕ) (hi : i < n) (hj : j < n) :
    hasWalkB adj n k i j = hasWalkB adj n k j i := by
  have h := hasWalkB_symm_iff adj n k i j hi hj
  cases ha : hasWalkB adj n k i j <;> cases hb : hasWalkB adj n k j i <;>
    simp_all

theorem mem_reachStep (adj : ℕ → ℕ → ℚ) (n : ℕ) (S : Finset ℕ) (j : ℕ) :
    j ∈ reachStep adj n S
      ↔ j ∈ S ∨ (j < n ∧ ∃ m ∈ S, edgeB adj m j = true) := by
  simp [reachStep, Finset.mem_union, Finset.mem_filter, Finset.mem_range]

theorem mem_reach_iff (adj : ℕ → ℕ → ℚ) (n i : ℕ) (hi : i < n) :
    ∀ k j, j ∈ reach adj n i k
      ↔ (j < n ∧ ∃ d, d ≤ k ∧ hasWalkB adj n d i j = true) := by
  intro k
  induction k with
  | zero =>
    intro j
    constructor
    · intro h
      have : j = i := by simpa [reach] using h
      subst this
      exact ⟨hi, 0, le_refl 0, (hasWalkB_zero_iff adj n j j).mpr rfl⟩
    · rintro ⟨hj, d, hd, hw⟩
      interval_cases d
      rw [hasWalkB_zero_iff] at hw
      subst hw
      simp [reach]
  | succ k ih =>
    intro j
    rw [reach, mem_reachStep]
    constructor
    · rintro (h | ⟨hj, m, hm, he⟩)
      · obtain ⟨hj, d, hd, hw⟩ := (ih j).mp h
        exact ⟨hj, d, Nat.le_succ_of_le hd, hw⟩
      · obtain ⟨hmn, d, hd, hw⟩ := (ih m).mp hm
        refine ⟨hj, d + 1, Nat.succ_le_succ hd, ?_⟩
        exact (hasWalkB_snoc_iff adj n d i j hi hj).mpr ⟨m, hmn, hw, he⟩
    · rintro ⟨hj, d, hd, hw⟩
      rcases Nat.lt_or_ge d (k + 1) with hlt | hge
      · exact Or.inl ((ih j).mpr ⟨hj, d, Nat.lt_succ_iff.mp hlt, hw⟩)
      · have hdk : d = k + 1 := le_antisymm hd hge
        subst hdk
        obtain ⟨m, hm, hw', he⟩ := (hasWalkB_snoc_iff adj n k i j hi hj).mp hw
        exact Or.inr ⟨hj, m, (ih m).mpr ⟨hm, k, le_refl k, hw'⟩, he⟩

theorem reach_subset_succ (adj : ℕ → ℕ → ℚ) (n i k : ℕ) :
    reach adj n i k ⊆ reach adj n i (k + 1) := by
  rw [reach, reachStep]
  exact Finset.subset_union_left

theorem reach_mono (adj : ℕ → ℕ → ℚ) (n i : ℕ) {k l : ℕ} (h : k ≤ l) :
    reach adj n i k ⊆ reach adj n i l := by
  induction l with
  | zero =>
    have : k = 0 := Nat.le_zero.mp h
    subst this
    exact subset_rfl
  | succ l ih =>
    rcases Nat.lt_or_ge k (l + 1) with hlt | hge
    · exact (ih (Nat.lt_succ_iff.mp hlt)).trans (reach_subset_succ adj n i l)
    · have : k = l + 1 := le_antisymm h hge
      subst this
      exact subset_rfl

theorem reach_stab (adj : ℕ → ℕ → ℚ) (n i k : ℕ)
    (h : reachStep adj n (reach adj n i k) = reach adj n i k) :
    ∀ m, reach adj n i (k + m) = reach adj n i k := by
  intro m
  induction m with
  | zero => rfl
  | succ m ih =>
    have : k + (m + 1) = (k + m) + 1 := rfl
    rw [this, reach, ih, h]

theorem reach_subset_range (adj : ℕ → ℕ → ℚ) (n i : ℕ) (hi : i < n) :
    ∀ k, reach adj n i k ⊆ Finset.range n := by
  intro k
  induction k with
  | zero =>
    intro j hj
    have : j = i := by simpa [reach] using hj
    subst this
    exact Finset.mem_range.mpr hi
  | succ k ih =>
    intro j hj
    rcases (mem_reachStep adj n (reach adj n i k) j).mp hj with h | ⟨hjn, _⟩
    · exact ih h
    · exact Finset.mem_range.mpr hjn

theorem reach_exists_stab (adj : ℕ → ℕ → ℚ) (n i : ℕ) (hi : i < n) :
    ∃ k, k < n ∧ reachStep adj n (reach adj n i k) = reach adj n i k := by
  by_contra hcon
  push_neg at hcon
  have haux : ∀ k, k < n → k + 1 ≤ (reach adj n i k).card := by
    intro k
    induction k with
    | zero =>
      intro _
      have : reach adj n i 0 = {i} := rfl
      rw [this]
      simp
    | succ k ih =>
      intro hk
      have hk' : k < n := Nat.lt_of_succ_lt hk
      have h1 : k + 1 ≤ (reach adj n i k).card := ih hk'
      have hne : reachStep adj n (reach adj n i k) ≠ reach adj n i k :=
        hcon k hk'
      have hsub : reach adj n i k ⊆ reach adj n i (k + 1) :=
        reach_subset_succ adj n i k
      have hss : reach adj n i k ⊂ reach adj n i (k + 1) := by
        refine ⟨hsub, fun hback => hne ?_⟩
        have : reach adj n i (k + 1) = reach adj n i k :=
          le_antisymm hback hsub
        simpa [reach] using this
      have hcard : (reach adj n i k).card < (reach adj n i (k + 1)).card :=
        Finset.card_lt_card hss
      omega
  have hn : 0 < n := lt_of_le_of_lt (Nat.zero_le i) hi
  have hcard1 : n ≤ (reach adj n i (n - 1)).card := by
    have := haux (n - 1) (by omega)
    omega
  have hne : reachStep adj n (reach adj n i (n - 1)) ≠ reach adj n i (n - 1) :=
    hcon (n - 1) (by omega)
  have hsub : reach adj n i (n - 1) ⊆ reach adj n i (n - 1 + 1) :=
    reach_subset_succ adj n i (n - 1)
  have hss : reach adj n i (n - 1) ⊂ reach adj n i (n - 1 + 1) := by
    refine ⟨hsub, fun hback => hne ?_⟩
    have : reach adj n i (n - 1 + 1) = reach adj n i (n - 1) :=
      le_antisymm hback hsub
    simpa [reach] using this
  have hcard2 : (reach adj n i (n - 1)).card < (reach adj n i (n - 1 + 1)).card :=
    Finset.card_lt_card hss
  have hcard3 : (reach adj n i (n - 1 + 1)).card ≤ n := by
    have := Finset.card_le_card (reach_subset_range adj n i hi (n - 1 + 1))
    simpa using this
  omega

theorem hasWalkB_shorten (adj : ℕ → ℕ → ℚ) (n i j : ℕ) (hi : i < n) (hj : j < n)
    (h : ∃ d, hasWalkB adj n d i j = true) :
    ∃ d, d < n ∧ hasWalkB adj n d i j = true := by
  obtain ⟨d, hd⟩ := h
  have hjd : j ∈ reach adj n i d :=
    (mem_reach_iff adj n i hi d j).mpr ⟨hj, d, le_refl d, hd⟩
  obtain ⟨k0, hk0, hstab⟩ := reach_exists_stab adj n i hi
  have hjk0 : j ∈ reach adj n i k0 := by
    rcases le_or_lt d k0 with hle | hlt
    · exact reach_mono adj n i hle hjd
    · have : reach adj n i d = reach adj n i k0 := by
        have := reach_stab adj n i k0 hstab (d - k0)
        rwa [Nat.add_sub_cancel' (le_of_lt hlt)] at this
      rwa [this] at hjd
  obtain ⟨_, d', hd'le, hw⟩ := (mem_reach_iff adj n i hi k0 j).mp hjk0
  exact ⟨d', lt_of_le_of_lt hd'le hk0, hw⟩

theorem spDistAux_some_spec (adj : ℕ → ℕ → ℚ) (n i j : ℕ) :
    ∀ fuel cur d, spDistAux adj n i j cur fuel = some d →
      hasWalkB adj n d i j = true ∧ cur ≤ d ∧
        ∀ e, cur ≤ e → e < d → hasWalkB adj n e i j = false := by
  intro fuel
  induction fuel with
  | zero => intro cur d h; simp [spDistAux] at h
  | succ fuel ih =>
    intro cur d h
    rw [spDistAux] at h
    by_cases hw : hasWalkB adj n cur i j = true
    · rw [if_pos hw] at h
      obtain rfl : cur = d := Option.some.inj h
      exact ⟨hw, le_refl cur, fun e he hlt => absurd (lt_of_le_of_lt he hlt)
        (lt_irrefl cur)⟩
    · rw [if_neg hw] at h
      obtain ⟨h1, h2, h3⟩ := ih (cur + 1) d h
      refine ⟨h1, le_trans (Nat.le_succ cur) h2, fun e he hlt => ?_⟩
      rcases Nat.lt_or_ge e (cur + 1) with helt | hege
      · have : e = cur := by omega
        subst this
        exact Bool.not_eq_true _ |>.mp hw
      · exact h3 e hege hlt

theorem spDistAux_isSome (adj : ℕ → ℕ → ℚ) (n i j : ℕ) :
    ∀ fuel cur d, cur ≤ d → d < cur + fuel → hasWalkB adj n d i j = true →
      ∃ d', spDistAux adj n i j cur fuel = some d' := by
  intro fuel
  induction fuel with
  | zero => intro cur d h1 h2 _; omega
  | succ fuel ih =>
    intro cur d h1 h2 hw
    by_cases hcur : hasWalkB adj n cur i j = true
    · exact ⟨cur, by rw [spDistAux, if_pos hcur]⟩
    · have hne : cur ≠ d := fun hcd => hcur (hcd ▸ hw)
      obtain ⟨d', hd'⟩ := ih (cur + 1) d (by omega) (by omega) hw
      exact ⟨d', by rw [spDistAux, if_neg hcur]; exact hd'⟩

theorem spDist_spec (adj : ℕ → ℕ → ℚ) (n i j : ℕ) (hi : i < n) (hj : j < n)
    (h : ∃ d, hasWalkB adj n d i j = true) :
    ∃ d, spDist adj n i j = some d ∧ hasWalkB adj n d i j = true ∧
      ∀ e, hasWalkB adj n e i j = true → d ≤ e := by
  obtain ⟨d0, hd0n, hw0⟩ := hasWalkB_shorten adj n i j hi hj h
  obtain ⟨d', hd'⟩ := spDistAux_isSome adj n i j n 0 d0 (Nat.zero_le d0)
    (by omega) hw0
  obtain ⟨h1, _, h3⟩ := spDistAux_some_spec adj n i j n 0 d' hd'
  refine ⟨d', hd', h1, fun e he => ?_⟩
  by_contra hlt
  push_neg at hlt
  have := h3 e (Nat.zero_le e) hlt
  rw [he] at this
  exact Bool.true_eq_false.mp this

theorem spDistAux_congr (adj : ℕ → ℕ → ℚ) (n i j i' j' : ℕ)
    (h : ∀ k, hasWalkB adj n k i j = hasWalkB adj n k i' j') :
    ∀ fuel cur, spDistAux adj n i j cur fuel = spDistAux adj n i' j' cur fuel := by
  intro fuel
  induction fuel with
  | zero => intro cur; rfl
  | succ fuel ih =>
    intro cur
    rw [spDistAux, spDistAux, h cur, ih (cur + 1)]

theorem spDist_symm (adj : ℕ → ℕ → ℚ) (n i j : ℕ) (hi : i < n) (hj : j < n) :
    spDist adj n i j = spDist adj n j i :=
  spDistAux_congr adj n i j j i (fun k => hasWalkB_symm adj n k i j hi hj) n 0

theorem spDist_diag (adj : ℕ → ℕ → ℚ) (n i : ℕ) (hi : i < n) :
    spDist adj n i i = some 0 := by
  cases n with
  | zero => omega
  | succ m =>
    have hw : hasWalkB adj (m + 1) 0 i i = true :=
      (hasWalkB_zero_iff adj (m + 1) i i).mpr rfl
    rw [spDist, spDistAux, if_pos hw]

theorem mapM_option_eq_some_map {α β : Type} (l : List α) (f : α → Option β)
    (g : α → β) (h : ∀ a ∈ l, f a = some (g a)) : l.mapM f = some (l.map g) := by
  induction l with
  | nil => rfl
  | cons a l ih =>
    have ha : f a = some (g a) := h a (by simp)
    have hl : l.mapM f = some (l.map g) := ih (fun b hb => h b (by simp [hb]))
    rw [List.map_cons, List.mapM_cons, ha, hl]
    rfl

/-- C3: for every connected graph (any nonzero adjacency entry gives an
undirected edge), the computed matrix exists, is `num_nodes × num_nodes`, its
entry `(i, j)` is the least number of edges of any walk from `i` to `j` (the
shortest-path hop count), it is symmetric, and its diagonal is zero. -/
theorem C3_distance_matrix_correct (adj : ℕ → ℕ → ℚ) (n : ℕ)
    (hconn : Connected adj n) :
    ∃ M, graphormerDistMatrix adj n = some M ∧
      M.length = n ∧ (∀ row ∈ M, row.length = n) ∧
      (∀ i, i < n → ∀ j, j < n → ∃ d, distEntry M i j = some d ∧
        hasWalkB adj n d i j = true ∧
        (∀ e, hasWalkB adj n e i j = true → d ≤ e)) ∧
      (∀ i, i < n → ∀ j, j < n → distEntry M i j = distEntry M j i) ∧
      (∀ i, i < n → distEntry M i i = some 0) := by
  have htot : ∀ i, i < n → ∀ j, j < n → ∃ d, spDist adj n i j = some d ∧
      hasWalkB adj n d i j = true ∧
      ∀ e, hasWalkB adj n e i j = true → d ≤ e := by
    intro i hi j hj
    exact spDist_spec adj n i j hi hj (hconn i hi j hj)
  refine ⟨(List.range n).map
    (fun i => (List.range n).map (fun j => (spDist adj n i j).getD 0)), ?_, ?_,
    ?_, ?_, ?_, ?_⟩
  · apply mapM_option_eq_some_map
    intro i hi
    rw [List.mem_range] at hi
    apply mapM_option_eq_some_map
    intro j hj
    rw [List.mem_range] at hj
    obtain ⟨d, hd, _, _⟩ := htot i hi j hj
    rw [hd]
    rfl
  · simp
  · intro row hrow
    rw [List.mem_map] at hrow
    obtain ⟨i, _, hrow⟩ := hrow
    simp [← hrow]
  · intro i hi j hj
    obtain ⟨d, hd, hw, hmin⟩ := htot i hi j hj
    refine ⟨d, ?_, hw, hmin⟩
    rw [distEntry, List.get?_map, List.get?_range hi]
    simp only [Option.map_some', Option.some_bind]
    rw [List.get?_map, List.get?_range hj]
    simp only [Option.map_some']
    rw [hd]
    rfl
  · intro i hi j hj
    have hij : distEntry ((List.range n).map
        (fun i => (List.range n).map (fun j => (spDist adj n i j).getD 0))) i j
        = some ((spDist adj n i j).getD 0) := by
      rw [distEntry, List.get?_map, List.get?_range hi]
      simp only [Option.map_some', Option.some_bind]
      rw [List.get?_map, List.get?_range hj]
      rfl
    have hji : distEntry ((List.range n).map
        (fun i => (List.range n).map (fun j => (spDist adj n i j).getD 0))) j i
        = some ((spDist adj n j i).getD 0) := by
      rw [distEntry, List.get?_map, List.get?_range hj]
      simp only [Option.map_some', Option.some_bind]
      rw [List.get?_map, List.get?_range hi]
      rfl
    rw [hij, hji, spDist_symm adj n i j hi hj]
  · intro i hi
    rw [distEntry, List.get?_map, List.get?_range hi]
    simp only [Option.map_some', Option.some_bind]
    rw [List.get?_map, List.get?_range hi]
    simp only [Option.map_some']
    rw [spDist_diag adj n i hi]
    rfl

/-- Witness for C3: the spec's 4-cycle 0-1-2-3-0 is connected, and the claim's
conclusion holds for it. -/
theorem C3_witness :
    Connected adj4 4 ∧
    ∃ M, graphormerDistMatrix adj4 4 = some M ∧
      M.length = 4 ∧ (∀ row ∈ M, row.length = 4) ∧
      (∀ i, i < 4 → ∀ j, j < 4 → ∃ d, distEntry M i j = some d ∧
        hasWalkB adj4 4 d i j = true ∧
        (∀ e, hasWalkB adj4 4 e i j = true → d ≤ e)) ∧
      (∀ i, i < 4 → ∀ j, j < 4 → distEntry M i j = distEntry M j i) ∧
      (∀ i, i < 4 → distEntry M i i = some 0) := by
  have hbdd : ∀ i, i < 4 → ∀ j, j < 4 →
      ∃ d ∈ List.range 4, hasWalkB adj4 4 d i j = true := by decide
  have hconn : Connected adj4 4 := by
    intro i hi j hj
    obtain ⟨d, _, hd⟩ := hbdd i hi j hj
    exact ⟨d, hd⟩
  exact ⟨hconn, C3_distance_matrix_correct adj4 4 hconn⟩
